import Mathlib

/-!
Verification of the algorithmic core of PragyaEdits over a shallow
embedding in rational arithmetic:

* `compose_story` from `modules/story_builder.py`,
* `compute_virality_score` (and its signal helpers) from
  `modules/creator_intelligence.py`,
* the candidate-selection tail of `_find_plate_boxes` from
  `modules/addons/blur_plates.py`.

Python floats are modelled as `ℚ`; Python `int()` truncation is modelled
by `pyInt`.
-/

namespace PragyaEdits

/-- A highlight candidate as produced by `compute_virality_score`:
`{"start": …, "end": …, "score": …, "mood": …}`.  The source's `end`
field is named `stop` here because `end` is a Lean keyword. -/
structure Candidate where
  start : ℚ
  stop : ℚ
  score : ℚ
  mood : String
deriving DecidableEq

/-- The loop of `compose_story`: iterate the highlights in order, keeping
a running total of the durations `max(0.3, h["end"] - h["start"])`, and
stop (`break`) as soon as `total + dur > max_total_sec`. -/
def storyLoop : List Candidate → ℚ → ℚ → List Candidate
  | [], _, _ => []
  | h :: t, total, budget =>
    let dur := max (3/10) (h.stop - h.start)
    if total + dur > budget then []
    else h :: storyLoop t (total + dur) budget

/-- `compose_story(highlights, transcript_json, max_total_sec=45)` from
`modules/story_builder.py`: greedy prefix selection under a duration
budget, with the fallback `return out or highlights[:1]` (the first
candidate alone when the loop selected nothing).  The `transcript_json`
argument is unused by the source and omitted. -/
def compose_story (highlights : List Candidate) (maxTotalSec : ℚ) : List Candidate :=
  let out := storyLoop highlights 0 maxTotalSec
  if out = [] then highlights.take 1 else out

/-- Aggregate duration of a list of segments: the sum of `end - start`. -/
def dsum (l : List Candidate) : ℚ := (l.map fun c => c.stop - c.start).sum

/-- The duration measure the composer's loop actually accumulates:
the sum of `max(0.3, end - start)`. -/
def msum (l : List Candidate) : ℚ := (l.map fun c => max (3/10) (c.stop - c.start)).sum

lemma dsum_nil : dsum [] = 0 := rfl

lemma msum_cons (c : Candidate) (l : List Candidate) :
    msum (c :: l) = max (3/10) (c.stop - c.start) + msum l := by
  simp [msum]

lemma dsum_le_msum (l : List Candidate) : dsum l ≤ msum l := by
  induction l with
  | nil => simp [dsum, msum]
  | cons c t ih =>
    have h : c.stop - c.start ≤ max (3/10) (c.stop - c.start) := le_max_right _ _
    simp only [dsum, msum, List.map_cons, List.sum_cons] at *
    exact add_le_add h ih

/-- The loop's output is an initial segment of the input. -/
lemma storyLoop_isPre (l : List Candidate) (total budget : ℚ) :
    ∃ t, storyLoop l total budget ++ t = l := by
  induction l generalizing total with
  | nil => exact ⟨[], rfl⟩
  | cons h t ih =>
    simp only [storyLoop]
    split
    · exact ⟨h :: t, rfl⟩
    · obtain ⟨r, hr⟩ := ih (total + max (3/10) (h.stop - h.start))
      exact ⟨r, by rw [List.cons_append, hr]⟩

/-- Running-total invariant of the loop: either nothing was selected, or
the accumulated duration (from the given starting total) fits the budget. -/
lemma storyLoop_budget (l : List Candidate) (total budget : ℚ) :
    storyLoop l total budget = [] ∨
      total + msum (storyLoop l total budget) ≤ budget := by
  induction l generalizing total with
  | nil => exact Or.inl rfl
  | cons h t ih =>
    simp only [storyLoop]
    split
    · exact Or.inl rfl
    · rename_i hle
      push_neg at hle
      right
      rcases ih (total + max (3/10) (h.stop - h.start)) with h0 | h0
      · rw [h0, msum_cons, msum]
        simpa using hle
      · rw [msum_cons, ← add_assoc]
        exact le_trans (by linarith [msum_cons h (storyLoop t (total + max (3/10) (h.stop - h.start)) budget)]) h0

/-- C5: for candidates with `end > start` and any budget, the aggregate
duration of the composed story is at most the budget, except in the
fallback case where the output is exactly the first candidate alone; the
output is an initial segment of the input (order preserved). -/
theorem claim_C5 (hl : List Candidate) (budget : ℚ)
    (hd : ∀ c ∈ hl, c.start < c.stop) :
    (dsum (compose_story hl budget) ≤ budget ∨
      compose_story hl budget = hl.take 1) ∧
      compose_story hl budget <+: hl := by
  simp only [compose_story]
  split
  · exact ⟨Or.inr rfl, ⟨hl.drop 1, List.take_append_drop 1 hl⟩⟩
  · rename_i hne
    constructor
    · left
      rcases storyLoop_budget hl 0 budget with h0 | h0
      · exact absurd h0 hne
      · calc dsum (storyLoop hl 0 budget) ≤ msum (storyLoop hl 0 budget) :=
              dsum_le_msum _
          _ ≤ budget := by linarith
    · exact storyLoop_isPre hl 0 budget

theorem claim_C5_witness :
    (dsum (compose_story [⟨0, 10, 0, ""⟩] 45) ≤ 45 ∨
      compose_story [⟨0, 10, 0, ""⟩] 45 = [Candidate.mk 0 10 0 ""].take 1) ∧
      compose_story [⟨0, 10, 0, ""⟩] 45 <+: [⟨0, 10, 0, ""⟩] :=
  claim_C5 [⟨0, 10, 0, ""⟩] 45 (by decide)

/-- C3 fails as stated: on the literal input
`[{0,10},{10,50},{50,60}]` with budget `45`, the composer does not return
the two-element prefix `[{0,10},{10,50}]` (it stops before the second
element, whose inclusion would raise the running total to `50 > 45`). -/
theorem claim_C3_counterexample :
    compose_story [⟨0, 10, 0, ""⟩, ⟨10, 50, 0, ""⟩, ⟨50, 60, 0, ""⟩] 45 ≠
      [⟨0, 10, 0, ""⟩, ⟨10, 50, 0, ""⟩] := by
  norm_num [compose_story, storyLoop]

/-- C3 (amended): on the literal input `[{0,10},{10,50},{50,60}]` with
budget `45`, `compose_story` returns exactly `[{0,10}]`: after the first
element the running total is `10`, and the second element's duration `40`
would raise it to `50 > 45`, stopping the loop. -/
theorem claim_C3 :
    compose_story [⟨0, 10, 0, ""⟩, ⟨10, 50, 0, ""⟩, ⟨50, 60, 0, ""⟩] 45 =
      [⟨0, 10, 0, ""⟩] := by
  norm_num [compose_story, storyLoop]

/-- C6: for every non-empty candidate list and every budget the composed
story is non-empty; in particular the single candidate `{0,100}` with
budget `10` yields exactly `[{0,100}]`. -/
theorem claim_C6 (hl : List Candidate) (b : ℚ) (hne : hl ≠ []) :
    compose_story hl b ≠ [] ∧
      compose_story [⟨0, 100, 0, ""⟩] 10 = [⟨0, 100, 0, ""⟩] := by
  refine ⟨?_, by norm_num [compose_story, storyLoop]⟩
  simp only [compose_story]
  split
  · cases hl with
    | nil => exact absurd rfl hne
    | cons h t => simp
  · assumption

theorem claim_C6_witness :
    compose_story [⟨0, 100, 0, ""⟩] 10 ≠ [] ∧
      compose_story [⟨0, 100, 0, ""⟩] 10 = [⟨0, 100, 0, ""⟩] :=
  claim_C6 [⟨0, 100, 0, ""⟩] 10 (by decide)

/-! ## The virality scorer (`modules/creator_intelligence.py`) -/

/-- The `1e-9` epsilon of the min-max normalizations in `_audio_energy`
and `_motion_score`. -/
def epsNorm : ℚ := 1 / 1000000000

/-- `numpy`'s `.min()` over a (nonempty) array; `0` on the empty list. -/
def listMin : List ℚ → ℚ
  | [] => 0
  | a :: t => t.foldl min a

/-- `numpy`'s `.max()` over a (nonempty) array; `0` on the empty list. -/
def listMax : List ℚ → ℚ
  | [] => 0
  | a :: t => t.foldl max a

/-- The min-max normalization `(v - min) / (max - min + 1e-9)` applied to
`rmse` in `_audio_energy` and to `s` in `_motion_score`. -/
def minmaxNorm (l : List ℚ) : List ℚ :=
  l.map fun v => (v - listMin l) / (listMax l - listMin l + epsNorm)

/-- Python `int()` on a rational: truncation toward zero. -/
def pyInt (q : ℚ) : ℤ := if q < 0 then -⌊-q⌋ else ⌊q⌋

/-- `win = max(1, int(target_len / max(hop_sec, 1e-3)))` from line 41 of
`compute_virality_score`. -/
def winSamples (targetLen hopSec : ℚ) : ℕ :=
  (max 1 (pyInt (targetLen / max hopSec (1/1000)))).toNat

/-- `np.interp` at one query point `x` against the sample points
`0, 1, …, len(l)-1` with values `l` (the only form in which
`compute_virality_score` calls it): linear interpolation between the two
neighbouring samples, returning the last sample at and beyond the top
end.  Meaningful for `0 ≤ x ≤ len(l)-1`. -/
def interpAt (l : List ℚ) (x : ℚ) : ℚ :=
  let j := (⌊x⌋).toNat
  if j + 1 < l.length then
    l.getD j 0 + (l.getD (j + 1) 0 - l.getD j 0) * (x - j)
  else
    l.getD (l.length - 1) 0

/-- `np.interp(np.linspace(0, len(s)-1, L), np.arange(len(s)), s) if
len(s) > 1 else np.full(L, s[0])`: resample a signal to length `L`
(lines 37–38 of `compute_virality_score`).  The `k`-th query point of
`np.linspace(0, n-1, L)` is `k*(n-1)/(L-1)`. -/
def resample (l : List ℚ) (L : ℕ) : List ℚ :=
  if 1 < l.length then
    (List.range L).map fun k : ℕ =>
      interpAt l ((k : ℚ) * ((l.length : ℚ) - 1) / ((L : ℚ) - 1))
  else
    List.replicate L (l.headD 0)

/-- `np.cumsum(np.concatenate([[0], score]))`: the list of partial sums
of `score`, starting with `0`. -/
def cumsum (l : List ℚ) : List ℚ := l.scanl (· + ·) 0

/-- `cumsum[i+w] - cumsum[i]`: the sum of `score[i], …, score[i+w-1]`. -/
def windowSum (score : List ℚ) (i w : ℕ) : ℚ :=
  (cumsum score).getD (i + w) 0 - (cumsum score).getD i 0

/-- The sliding-window maximum loop of `compute_virality_score`
(lines 42–45): `best_i, best_v = 0, -1`; for `i in range(0, len(score)-win)`
replace the best pair whenever the window sum strictly exceeds `best_v`
(so ties keep the first occurrence). -/
def bestWindow (score : List ℚ) (w : ℕ) : ℕ × ℚ :=
  (List.range (score.length - w)).foldl
    (fun best i =>
      if best.2 < windowSum score i w then (i, windowSum score i w) else best)
    (0, -1)

/-- Lines 33–48 of `modules/creator_intelligence.py`
(`compute_virality_score`), taken from the point where the two extracted
signals are in hand: `rmse` and `motion` (already min-max normalized by
`_audio_energy` / `_motion_score`, with hop duration `hop_sec`) are
resampled to the common length `L = max(len(rmse), len(motion))`, fused
as `0.6*rmse + 0.4*motion`, and the best window of `win` samples becomes
the single returned candidate
`{"start": max(0, start), "end": max(start+0.3, end),
  "score": best_v/max(win,1), "mood": "energetic"}`. -/
def compute_virality_score (rmse motion : List ℚ) (hopSec targetLen : ℚ) :
    List Candidate :=
  let L := max rmse.length motion.length
  let r := resample rmse L
  let m := resample motion L
  let score := List.zipWith (fun a b => (6/10) * a + (4/10) * b) r m
  let w := winSamples targetLen hopSec
  let best := bestWindow score w
  let start : ℚ := best.1 * hopSec
  let e : ℚ := start + targetLen
  [{ start := max 0 start, stop := max (start + 3/10) e,
     score := best.2 / ((max w 1 : ℕ) : ℚ), mood := "energetic" }]

lemma resample_length (l : List ℚ) (L : ℕ) : (resample l L).length = L := by
  unfold resample
  split
  · rw [List.length_map, List.length_range]
  · rw [List.length_replicate]

lemma winSamples_pos (t h : ℚ) : 1 ≤ winSamples t h := by
  unfold winSamples
  have := le_max_left 1 (pyInt (t / max h (1/1000)))
  omega

/-- When `L ≤ win` the offset loop runs zero times. -/
lemma bestWindow_of_le (score : List ℚ) (w : ℕ) (h : score.length ≤ w) :
    bestWindow score w = (0, -1) := by
  unfold bestWindow
  rw [Nat.sub_eq_zero_of_le h]
  rfl

/-- C1 fails as stated: with both signals the single-sample fallback
`[0.5]` (so `L = 1`), hop `1.0` and target `30.0` we have `L ≤ win = 30`,
yet `compute_virality_score` returns a (non-empty) one-candidate list,
not the empty list. -/
theorem claim_C1_counterexample :
    max [((1:ℚ)/2)].length [((1:ℚ)/2)].length ≤ winSamples 30 1 ∧
      compute_virality_score [1/2] [1/2] 1 30 ≠ [] := by
  constructor
  · norm_num [winSamples, pyInt]
  · simp [compute_virality_score]

/-- C1 (amended): when the common resampled length `L` satisfies
`L ≤ win`, `compute_virality_score` does not fail, but neither does it
return an empty list: the offset loop never runs, and the function
returns the single degenerate candidate built from the initial values
`best_i = 0, best_v = -1`, i.e.
`{start = 0, end = max(0.3, target_len), score = -1/win,
  mood = "energetic"}`. -/
theorem claim_C1 (rmse motion : List ℚ) (hopSec targetLen : ℚ)
    (hdeg : max rmse.length motion.length ≤ winSamples targetLen hopSec) :
    compute_virality_score rmse motion hopSec targetLen =
      [⟨0, max (3/10) targetLen, -1 / ((winSamples targetLen hopSec : ℕ) : ℚ),
        "energetic"⟩] := by
  simp only [compute_virality_score]
  have hlen :
      (List.zipWith (fun a b => (6/10) * a + (4/10) * b)
          (resample rmse (max rmse.length motion.length))
          (resample motion (max rmse.length motion.length))).length ≤
        winSamples targetLen hopSec := by
    rw [List.length_zipWith, resample_length, resample_length, min_self]
    exact hdeg
  rw [bestWindow_of_le _ _ hlen]
  have hmax : max (winSamples targetLen hopSec) 1 = winSamples targetLen hopSec :=
    Nat.max_eq_left (winSamples_pos targetLen hopSec)
  rw [hmax]
  norm_num

theorem claim_C1_witness :
    compute_virality_score [1/2] [1/2] 1 30 =
      [⟨0, max (3/10) 30, -1 / ((winSamples 30 1 : ℕ) : ℚ), "energetic"⟩] :=
  claim_C1 [1/2] [1/2] 1 30 (by norm_num [winSamples, pyInt])

/-- Modelled from the spec's words for C7: `win = max(1,
round(target_duration / hop_seconds))`, `round` being
rounding to the nearest integer. -/
def winSamplesRound (targetLen hopSec : ℚ) : ℕ :=
  (max 1 (round (targetLen / hopSec))).toNat

/-- C7 fails as stated: at `target_duration = 5` and `hop_seconds = 3`
the code truncates `5/3` to `1` while the spec's round-to-nearest formula
gives `2`. -/
theorem claim_C7_counterexample :
    winSamples 5 3 = 1 ∧ winSamplesRound 5 3 = 2 := by
  constructor
  · norm_num [winSamples, pyInt]
  · rw [winSamplesRound, round_eq]
    norm_num
    rfl

/-- The spec formula for `win` amended as the counterexample forces:
rounding to the nearest integer is replaced by truncation toward zero
(the floor, the quotient being nonnegative), and the hop duration is
clamped below by `1e-3` before dividing. -/
def winSamplesTrunc (targetLen hopSec : ℚ) : ℕ :=
  (max 1 ⌊targetLen / max hopSec (1/1000)⌋).toNat

/-- C7 (amended): for positive target duration and positive hop duration,
the window length used by `compute_virality_score` is
`max(1, trunc(target_len / max(hop_sec, 1e-3)))` — truncation, not
rounding to nearest. -/
theorem claim_C7 (t h : ℚ) (ht : 0 < t) (hh : 0 < h) :
    winSamples t h = winSamplesTrunc t h := by
  have hq : ¬ t / max h (1/1000) < 0 := by
    have hd : (0:ℚ) < max h (1/1000) := lt_max_of_lt_left hh
    exact not_lt.mpr (le_of_lt (div_pos ht hd))
  rw [winSamples, winSamplesTrunc, pyInt, if_neg hq]

theorem claim_C7_witness : winSamples 5 3 = winSamplesTrunc 5 3 :=
  claim_C7 5 3 (by norm_num) (by norm_num)

lemma foldl_min_le (t : List ℚ) (a : ℚ) :
    t.foldl min a ≤ a ∧ ∀ v ∈ t, t.foldl min a ≤ v := by
  induction t generalizing a with
  | nil => simp
  | cons b t ih =>
    obtain ⟨h1, h2⟩ := ih (min a b)
    refine ⟨le_trans h1 (min_le_left a b), ?_⟩
    intro v hv
    rcases List.mem_cons.mp hv with rfl | hv
    · exact le_trans h1 (min_le_right a v)
    · exact h2 v hv

lemma le_foldl_max (t : List ℚ) (a : ℚ) :
    a ≤ t.foldl max a ∧ ∀ v ∈ t, v ≤ t.foldl max a := by
  induction t generalizing a with
  | nil => simp
  | cons b t ih =>
    obtain ⟨h1, h2⟩ := ih (max a b)
    refine ⟨le_trans (le_max_left a b) h1, ?_⟩
    intro v hv
    rcases List.mem_cons.mp hv with rfl | hv
    · exact le_trans (le_max_right a v) h1
    · exact h2 v hv

lemma listMin_le (l : List ℚ) (v : ℚ) (hv : v ∈ l) : listMin l ≤ v := by
  cases l with
  | nil => cases hv
  | cons a t =>
    rcases List.mem_cons.mp hv with rfl | hv
    · exact (foldl_min_le t v).1
    · exact (foldl_min_le t a).2 v hv

lemma le_listMax (l : List ℚ) (v : ℚ) (hv : v ∈ l) : v ≤ listMax l := by
  cases l with
  | nil => cases hv
  | cons a t =>
    rcases List.mem_cons.mp hv with rfl | hv
    · exact (le_foldl_max t v).1
    · exact (le_foldl_max t a).2 v hv

lemma foldl_min_mem (t : List ℚ) (a : ℚ) : t.foldl min a ∈ a :: t := by
  induction t generalizing a with
  | nil => simp
  | cons b t ih =>
    have h := ih (min a b)
    rcases List.mem_cons.mp h with he | hm
    · rcases min_choice a b with hc | hc <;> rw [List.foldl_cons, he, hc]
      · exact List.mem_cons_self a (b :: t)
      · exact List.mem_cons_of_mem a (List.mem_cons_self b t)
    · exact List.mem_cons_of_mem a (List.mem_cons_of_mem b hm)

lemma listMin_mem (l : List ℚ) (hne : l ≠ []) : listMin l ∈ l := by
  cases l with
  | nil => exact absurd rfl hne
  | cons a t => exact foldl_min_mem t a

/-- C9: for a non-empty input signal, the min-max normalization
`v' = (v - min)/(max - min + 1e-9)` produces values in `[0, 1]`; a
constant signal normalizes to all zeros; and the divisor
`max - min + 1e-9` is nonzero (the `ℚ` counterpart of "never NaN": the
division that would produce NaN in floating point cannot be `0/0`). -/
theorem claim_C9 (l : List ℚ) (hne : l ≠ []) :
    (∀ v ∈ minmaxNorm l, 0 ≤ v ∧ v ≤ 1) ∧
      (∀ c : ℚ, (∀ v ∈ l, v = c) → ∀ v ∈ minmaxNorm l, v = 0) ∧
      listMax l - listMin l + epsNorm ≠ 0 := by
  obtain ⟨a, t, rfl⟩ := List.exists_cons_of_ne_nil hne
  have hms : listMin (a :: t) ≤ a := listMin_le _ a (List.mem_cons_self a t)
  have hsm : a ≤ listMax (a :: t) := le_listMax _ a (List.mem_cons_self a t)
  have heps : (0:ℚ) < epsNorm := by norm_num [epsNorm]
  have hdpos : 0 < listMax (a :: t) - listMin (a :: t) + epsNorm := by linarith
  refine ⟨?_, ?_, ne_of_gt hdpos⟩
  · intro v hv
    obtain ⟨u, hu, rfl⟩ := List.mem_map.mp hv
    have h1 : listMin (a :: t) ≤ u := listMin_le _ u hu
    have h2 : u ≤ listMax (a :: t) := le_listMax _ u hu
    constructor
    · exact div_nonneg (by linarith) (le_of_lt hdpos)
    · rw [div_le_one hdpos]
      linarith
  · intro c hc v hv
    obtain ⟨u, hu, rfl⟩ := List.mem_map.mp hv
    have h1 : u = c := hc u hu
    have h2 : listMin (a :: t) = c :=
      hc _ (listMin_mem (a :: t) (List.cons_ne_nil a t))
    rw [h1, h2, sub_self, zero_div]

theorem claim_C9_witness :
    (∀ v ∈ minmaxNorm [2, 5], 0 ≤ v ∧ v ≤ 1) ∧
      (∀ c : ℚ, (∀ v ∈ [(2:ℚ), 5], v = c) → ∀ v ∈ minmaxNorm [2, 5], v = 0) ∧
      listMax [2, 5] - listMin [2, 5] + epsNorm ≠ 0 :=
  claim_C9 [2, 5] (List.cons_ne_nil 2 [5])

/-! ## Window-sum and sliding-maximum lemmas -/

lemma scanl_add_getD (l : List ℚ) (acc : ℚ) (k : ℕ) (hk : k ≤ l.length) :
    (l.scanl (· + ·) acc).getD k 0 = acc + (l.take k).sum := by
  induction l generalizing acc k with
  | nil =>
    have : k = 0 := by simpa using hk
    subst this
    simp [List.scanl]
  | cons a t ih =>
    rw [List.scanl_cons, List.singleton_append]
    cases k with
    | zero => simp
    | succ k =>
      rw [List.getD_cons_succ, ih (acc + a) k (by simpa using hk),
        List.take_succ_cons, List.sum_cons]
      ring

lemma cumsum_getD_succ (l : List ℚ) (m : ℕ) (hm : m < l.length) :
    (cumsum l).getD (m + 1) 0 = (cumsum l).getD m 0 + l.getD m 0 := by
  rw [cumsum, scanl_add_getD l 0 (m + 1) hm, scanl_add_getD l 0 m (le_of_lt hm),
    List.take_succ, List.sum_append, List.getElem?_eq_getElem hm,
    List.getD_eq_getElem?_getD, List.getElem?_eq_getElem hm]
  simp

/-- The prefix-sum difference `cumsum[i+k] - cumsum[i]` is indeed the sum
of the `k` samples starting at offset `i`. -/
lemma windowSum_getD (l : List ℚ) (i k : ℕ) (h : i + k ≤ l.length) :
    windowSum l i k = ∑ j ∈ Finset.range k, l.getD (i + j) 0 := by
  induction k with
  | zero => simp [windowSum]
  | succ k ih =>
    have hm : i + k < l.length := by omega
    rw [Finset.sum_range_succ, ← ih (le_of_lt hm), windowSum, windowSum,
      show i + (k + 1) = (i + k) + 1 from rfl, cumsum_getD_succ l (i + k) hm]
    ring

lemma getD_nonneg (l : List ℚ) (h : ∀ v ∈ l, 0 ≤ v) (j : ℕ) : 0 ≤ l.getD j 0 := by
  induction l generalizing j with
  | nil => simp [List.getD]
  | cons a t ih =>
    cases j with
    | zero => simpa using h a (List.mem_cons_self a t)
    | succ j =>
      rw [List.getD_cons_succ]
      exact ih (fun v hv => h v (List.mem_cons_of_mem a hv)) j

/-- The sliding-maximum fold of `bestWindow`, abstracted over the window
score `f` and the number of considered offsets `n` (proof helper). -/
def argmaxFold (f : ℕ → ℚ) (n : ℕ) : ℕ × ℚ :=
  (List.range n).foldl (fun best i => if best.2 < f i then (i, f i) else best) (0, -1)

/-- Loop invariant of `bestWindow`'s fold: `best_v` dominates every
considered value, and either the initial pair `(0, -1)` survived, or
`best_i` is the first offset attaining `best_v`. -/
lemma argmaxFold_inv (f : ℕ → ℚ) (n : ℕ) :
    (∀ j < n, f j ≤ (argmaxFold f n).2) ∧
      (argmaxFold f n = (0, -1) ∨
        ((argmaxFold f n).1 < n ∧ f (argmaxFold f n).1 = (argmaxFold f n).2 ∧
          ∀ j < (argmaxFold f n).1, f j < (argmaxFold f n).2)) := by
  induction n with
  | zero =>
    exact ⟨fun j hj => absurd hj (Nat.not_lt_zero j), Or.inl rfl⟩
  | succ n ih =>
    have hstep : argmaxFold f (n + 1) =
        (if (argmaxFold f n).2 < f n then (n, f n) else argmaxFold f n) := by
      rw [argmaxFold, argmaxFold, List.range_succ, List.foldl_append]
      rfl
    by_cases hc : (argmaxFold f n).2 < f n
    · rw [hstep, if_pos hc]
      constructor
      · intro j hj
        rcases Nat.lt_succ_iff_lt_or_eq.mp hj with hj | rfl
        · exact le_of_lt (lt_of_le_of_lt (ih.1 j hj) hc)
        · exact le_refl _
      · exact Or.inr ⟨Nat.lt_succ_self n, rfl,
          fun j hj => lt_of_le_of_lt (ih.1 j hj) hc⟩
    · rw [hstep, if_neg hc]
      constructor
      · intro j hj
        rcases Nat.lt_succ_iff_lt_or_eq.mp hj with hj | rfl
        · exact ih.1 j hj
        · exact not_lt.mp hc
      · rcases ih.2 with h | ⟨h1, h2, h3⟩
        · exact Or.inl h
        · exact Or.inr ⟨Nat.lt_succ_of_lt h1, h2, h3⟩

/-! ## Spike signals (C4) -/

/-- A fused signal of length `L` that is `0.0` everywhere except one
contiguous run of `w` samples of value `1.0` starting at index `s`. -/
def spikeSignal (L s w : ℕ) : List ℚ :=
  (List.range L).map fun j => if s ≤ j ∧ j < s + w then (1 : ℚ) else 0

lemma spikeSignal_length (L s w : ℕ) : (spikeSignal L s w).length = L := by
  rw [spikeSignal, List.length_map, List.length_range]

lemma spikeSignal_getD (L s w j : ℕ) (hj : j < L) :
    (spikeSignal L s w).getD j 0 = if s ≤ j ∧ j < s + w then (1 : ℚ) else 0 := by
  rw [spikeSignal, List.getD_eq_getElem?_getD, List.getElem?_map,
    List.getElem?_range hj]
  rfl

lemma spike_windowSum_le (L s w i k : ℕ) (h : i + k ≤ L) :
    windowSum (spikeSignal L s w) i k ≤ (k : ℚ) := by
  rw [windowSum_getD _ _ _ (by rw [spikeSignal_length]; exact h)]
  calc (∑ j ∈ Finset.range k, (spikeSignal L s w).getD (i + j) 0)
      ≤ ∑ _j ∈ Finset.range k, (1 : ℚ) := by
        refine Finset.sum_le_sum fun j hj => ?_
        rw [spikeSignal_getD L s w (i + j) (by simp at hj; omega)]
        split <;> norm_num
    _ = (k : ℚ) := by simp

lemma spike_windowSum_full (L s w i k : ℕ) (hs : s ≤ i) (hk : i + k ≤ s + w)
    (hL : i + k ≤ L) :
    windowSum (spikeSignal L s w) i k = (k : ℚ) := by
  rw [windowSum_getD _ _ _ (by rw [spikeSignal_length]; exact hL)]
  calc (∑ j ∈ Finset.range k, (spikeSignal L s w).getD (i + j) 0)
      = ∑ _j ∈ Finset.range k, (1 : ℚ) := by
        refine Finset.sum_congr rfl fun j hj => ?_
        rw [spikeSignal_getD L s w (i + j) (by simp at hj; omega)]
        rw [if_pos (by simp at hj; omega)]
    _ = (k : ℚ) := by simp

lemma spike_windowSum_before (L s w i k : ℕ) (hi : i < s) (hk1 : 1 ≤ k)
    (hL : i + k ≤ L) :
    windowSum (spikeSignal L s w) i k ≤ (k : ℚ) - 1 := by
  obtain ⟨m, rfl⟩ : ∃ m, k = m + 1 := ⟨k - 1, by omega⟩
  rw [windowSum_getD _ _ _ (by rw [spikeSignal_length]; exact hL)]
  rw [Finset.sum_range_succ']
  have h0 : (spikeSignal L s w).getD (i + 0) 0 = 0 := by
    rw [Nat.add_zero, spikeSignal_getD L s w i (by omega), if_neg]
    rintro ⟨hsi, -⟩
    omega
  rw [h0, add_zero]
  calc (∑ j ∈ Finset.range m, (spikeSignal L s w).getD (i + (j + 1)) 0)
      ≤ ∑ _j ∈ Finset.range m, (1 : ℚ) := by
        refine Finset.sum_le_sum fun j hj => ?_
        rw [spikeSignal_getD L s w (i + (j + 1)) (by simp at hj; omega)]
        split <;> norm_num
    _ = (m : ℚ) := by simp
    _ ≤ ((m : ℚ) + 1) - 1 := by norm_num
    _ = ((m + 1 : ℕ) : ℚ) - 1 := by push_cast; ring

/-- C4 fails as stated: the fused signal `[0, 0, 1, 1]` is a spike of
width `2` at offset `2` and `win = 2 ≤ 2`, but the loop only considers
offsets `range(0, 4-2) = {0, 1}` — the offset `2` that would contain the
spike is excluded — so the chosen offset is `1`, whose window `[1, 3)` is
not inside the spike `[2, 4)`. -/
theorem claim_C4_counterexample :
    (bestWindow (spikeSignal 4 2 2) 2).1 = 1 ∧
      ¬ (2 ≤ (bestWindow (spikeSignal 4 2 2) 2).1 ∧
          (bestWindow (spikeSignal 4 2 2) 2).1 + 2 ≤ 2 + 2) := by
  have h : (bestWindow (spikeSignal 4 2 2) 2).1 = 1 := by
    norm_num [bestWindow, spikeSignal, windowSum, cumsum, List.range_succ,
      List.scanl, List.getD, List.getElem?_cons_zero, List.getElem?_cons_succ]
  exact ⟨h, by rw [h]; omega⟩

/-- C4 (amended): a window of length `win ≤ spike width` chosen by the
sliding-window maximum lies entirely inside the spike, provided
additionally `s + win < L` — i.e. some offset whose window is inside the
spike is among the considered offsets `range(0, L-win)`, whose exclusive
upper end drops the last valid start `L - win`.  (Ties are resolved by
first occurrence: the chosen offset is in fact the spike's start `s`.) -/
theorem claim_C4 (L s w win : ℕ) (hw1 : 1 ≤ win) (hww : win ≤ w)
    (hsw : s + w ≤ L) (hend : s + win < L) :
    s ≤ (bestWindow (spikeSignal L s w) win).1 ∧
      (bestWindow (spikeSignal L s w) win).1 + win ≤ s + w := by
  have hlen : (spikeSignal L s w).length = L := spikeSignal_length L s w
  have hp : bestWindow (spikeSignal L s w) win =
      argmaxFold (fun i => windowSum (spikeSignal L s w) i win)
        ((spikeSignal L s w).length - win) := rfl
  obtain ⟨hub, hcase⟩ :=
    argmaxFold_inv (fun i => windowSum (spikeSignal L s w) i win)
      ((spikeSignal L s w).length - win)
  have hsn : s < (spikeSignal L s w).length - win := by omega
  have hfs : windowSum (spikeSignal L s w) s win = (win : ℚ) :=
    spike_windowSum_full L s w s win (le_refl s) (by omega) (by omega)
  have hwin1 : (1 : ℚ) ≤ (win : ℚ) := by exact_mod_cast hw1
  have hp2 :
      (win : ℚ) ≤ (argmaxFold (fun i => windowSum (spikeSignal L s w) i win)
        ((spikeSignal L s w).length - win)).2 := hfs ▸ hub s hsn
  rcases hcase with hzero | ⟨hlt, hfe, hfirst⟩
  · rw [hzero] at hp2
    simp at hp2
    linarith
  · have hle : windowSum (spikeSignal L s w)
        (argmaxFold (fun i => windowSum (spikeSignal L s w) i win)
          ((spikeSignal L s w).length - win)).1 win ≤ (win : ℚ) :=
      spike_windowSum_le L s w _ win (by omega)
    have hp2e : (argmaxFold (fun i => windowSum (spikeSignal L s w) i win)
        ((spikeSignal L s w).length - win)).2 = (win : ℚ) :=
      le_antisymm (hfe ▸ hle) hp2
    have hge : s ≤ (argmaxFold (fun i => windowSum (spikeSignal L s w) i win)
        ((spikeSignal L s w).length - win)).1 := by
      by_contra hcon
      push_neg at hcon
      have hbefore := spike_windowSum_before L s w _ win hcon hw1 (by omega)
      rw [hfe, hp2e] at hbefore
      linarith
    have hles : (argmaxFold (fun i => windowSum (spikeSignal L s w) i win)
        ((spikeSignal L s w).length - win)).1 ≤ s := by
      by_contra hcon
      push_neg at hcon
      have := hfirst s hcon
      rw [hfs, hp2e] at this
      exact lt_irrefl _ this
    rw [hp]
    omega

theorem claim_C4_witness :
    2 ≤ (bestWindow (spikeSignal 6 2 3) 2).1 ∧
      (bestWindow (spikeSignal 6 2 3) 2).1 + 2 ≤ 2 + 3 :=
  claim_C4 6 2 3 2 (by omega) (by omega) (by omega) (by omega)

/-! ## Candidate well-formedness (C2) -/

lemma headD_nonneg (l : List ℚ) (h : ∀ v ∈ l, 0 ≤ v) : 0 ≤ l.headD 0 := by
  cases l with
  | nil => simp
  | cons a t => simpa using h a (List.mem_cons_self a t)

lemma interpAt_nonneg (l : List ℚ) (x : ℚ) (hx : 0 ≤ x) (h : ∀ v ∈ l, 0 ≤ v) :
    0 ≤ interpAt l x := by
  simp only [interpAt]
  split
  · have hfl : 0 ≤ ⌊x⌋ := Int.floor_nonneg.mpr hx
    have ha := getD_nonneg l h (⌊x⌋).toNat
    have hb := getD_nonneg l h ((⌊x⌋).toNat + 1)
    have hcast : (((⌊x⌋).toNat : ℕ) : ℚ) = ((⌊x⌋ : ℤ) : ℚ) := by
      exact_mod_cast congrArg (fun z : ℤ => (z : ℚ)) (Int.toNat_of_nonneg hfl)
    rw [hcast]
    have ht0 : 0 ≤ x - ((⌊x⌋ : ℤ) : ℚ) := sub_nonneg.mpr (Int.floor_le x)
    have ht1 : x - ((⌊x⌋ : ℤ) : ℚ) ≤ 1 := by
      have := Int.lt_floor_add_one x
      linarith
    nlinarith [mul_nonneg hb ht0, mul_nonneg ha (by linarith : (0:ℚ) ≤ 1 - (x - ((⌊x⌋ : ℤ) : ℚ)))]
  · exact getD_nonneg l h _

lemma resample_nonneg (l : List ℚ) (L : ℕ) (h : ∀ v ∈ l, 0 ≤ v) :
    ∀ v ∈ resample l L, 0 ≤ v := by
  intro v hv
  rw [resample] at hv
  split at hv
  · obtain ⟨k, hk, rfl⟩ := List.mem_map.mp hv
    refine interpAt_nonneg l _ ?_ h
    rename_i hlen1
    have hk' : (0:ℚ) ≤ (k : ℚ) := Nat.cast_nonneg k
    have hlen : (1:ℚ) ≤ (l.length : ℚ) := by exact_mod_cast le_of_lt hlen1
    have hL : 1 ≤ L := by
      have := List.mem_range.mp hk
      omega
    have hLq : (1:ℚ) ≤ (L : ℚ) := by exact_mod_cast hL
    exact div_nonneg (mul_nonneg hk' (by linarith)) (by linarith)
  · rw [List.eq_of_mem_replicate hv]
    exact headD_nonneg l h

lemma zipWith_comb_nonneg (r m : List ℚ) (hr : ∀ v ∈ r, 0 ≤ v)
    (hm : ∀ v ∈ m, 0 ≤ v) :
    ∀ v ∈ List.zipWith (fun a b => (6/10) * a + (4/10) * b) r m, 0 ≤ v := by
  induction r generalizing m with
  | nil => intro v hv; simp at hv
  | cons a r ih =>
    cases m with
    | nil => intro v hv; simp at hv
    | cons b m =>
      intro v hv
      rw [List.zipWith_cons_cons] at hv
      rcases List.mem_cons.mp hv with rfl | hv
      · have ha := hr a (List.mem_cons_self a r)
        have hb := hm b (List.mem_cons_self b m)
        have h6 := mul_nonneg (by norm_num : (0:ℚ) ≤ 6/10) ha
        have h4 := mul_nonneg (by norm_num : (0:ℚ) ≤ 4/10) hb
        linarith
      · exact ih m (fun u hu => hr u (List.mem_cons_of_mem a hu))
          (fun u hu => hm u (List.mem_cons_of_mem b hu)) v hv

/-- C2 fails as stated: with both signals the single-sample fallback
`[0.5]`, hop `1.0` and target `30.0` (a degenerate window, `L = 1 < win`),
the returned candidate carries the loop's initial `best_v = -1`, giving
the negative score `-1/30`. -/
theorem claim_C2_counterexample :
    compute_virality_score [1/2] [1/2] 1 30 = [⟨0, 30, -(1/30), "energetic"⟩] ∧
      (-(1/30) : ℚ) < 0 := by
  constructor
  · norm_num [compute_virality_score, resample, winSamples, pyInt, bestWindow,
      List.replicate, Candidate.mk.injEq]
    rw [show (Int.toNat 30 : ℕ) = 30 from rfl]
    norm_num
  · norm_num

/-- C2 (amended): every candidate returned by `compute_virality_score`
satisfies `end > start`; and its score is nonnegative whenever the fused
signal is longer than the window (`win < L`), the input signals are
nonnegative (as the extractors' min-max normalization guarantees) and the
hop duration is positive.  (In the degenerate case `L ≤ win` the score is
the negative sentinel `-1/win`, see the counterexample.) -/
theorem claim_C2 (rmse motion : List ℚ) (hopSec targetLen : ℚ)
    (hr : ∀ v ∈ rmse, 0 ≤ v) (hm : ∀ v ∈ motion, 0 ≤ v)
    (hh : 0 < hopSec) (ht : 0 < targetLen)
    (hwin : winSamples targetLen hopSec < max rmse.length motion.length) :
    ∀ c ∈ compute_virality_score rmse motion hopSec targetLen,
      c.start < c.stop ∧ 0 ≤ c.score := by
  intro c hc
  simp only [compute_virality_score, List.mem_singleton] at hc
  subst hc
  constructor
  · simp only
    have h0 : (0:ℚ) ≤
        ((bestWindow
            (List.zipWith (fun a b => (6/10) * a + (4/10) * b)
              (resample rmse (max rmse.length motion.length))
              (resample motion (max rmse.length motion.length)))
            (winSamples targetLen hopSec)).1 : ℚ) * hopSec :=
      mul_nonneg (Nat.cast_nonneg _) (le_of_lt hh)
    rw [max_eq_right h0]
    refine lt_of_lt_of_le ?_ (le_max_left _ _)
    linarith
  · simp only
    apply div_nonneg _ (Nat.cast_nonneg _)
    have hlen :
        (List.zipWith (fun a b => (6/10) * a + (4/10) * b)
            (resample rmse (max rmse.length motion.length))
            (resample motion (max rmse.length motion.length))).length =
          max rmse.length motion.length := by
      rw [List.length_zipWith, resample_length, resample_length, min_self]
    have hnn := zipWith_comb_nonneg
      (resample rmse (max rmse.length motion.length))
      (resample motion (max rmse.length motion.length))
      (resample_nonneg rmse _ hr) (resample_nonneg motion _ hm)
    obtain ⟨hub, -⟩ :=
      argmaxFold_inv
        (fun i => windowSum
          (List.zipWith (fun a b => (6/10) * a + (4/10) * b)
            (resample rmse (max rmse.length motion.length))
            (resample motion (max rmse.length motion.length))) i
          (winSamples targetLen hopSec))
        ((List.zipWith (fun a b => (6/10) * a + (4/10) * b)
            (resample rmse (max rmse.length motion.length))
            (resample motion (max rmse.length motion.length))).length -
          winSamples targetLen hopSec)
    have h0lt : 0 < (List.zipWith (fun a b => (6/10) * a + (4/10) * b)
        (resample rmse (max rmse.length motion.length))
        (resample motion (max rmse.length motion.length))).length -
          winSamples targetLen hopSec := by omega
    have hf0 : (0:ℚ) ≤ windowSum
        (List.zipWith (fun a b => (6/10) * a + (4/10) * b)
          (resample rmse (max rmse.length motion.length))
          (resample motion (max rmse.length motion.length))) 0
        (winSamples targetLen hopSec) := by
      rw [windowSum_getD _ _ _ (by omega)]
      exact Finset.sum_nonneg fun j hj => getD_nonneg _ hnn _
    exact le_trans hf0 (hub 0 h0lt)

theorem claim_C2_witness :
    (Candidate.mk 0 1 (1/5) "energetic").start < (Candidate.mk 0 1 (1/5) "energetic").stop ∧
      0 ≤ (Candidate.mk 0 1 (1/5) "energetic").score :=
  claim_C2 [0, 1] [1/2] 1 1
    (by norm_num) (by norm_num) (by norm_num) (by norm_num)
    (by norm_num [winSamples, pyInt])
    (Candidate.mk 0 1 (1/5) "energetic")
    (by norm_num [compute_virality_score, resample, interpAt, winSamples, pyInt,
      bestWindow, windowSum, cumsum, List.range_succ, List.replicate,
      List.scanl, List.getD, Candidate.mk.injEq])

/-! ## Plate-box selection (`modules/addons/blur_plates.py`) -/

/-- A candidate tuple `(x1, y1, x2, y2, area, aspect, edge)` as built by
the contour loop of `_find_plate_boxes` (coordinates in the downscaled
image, already padded and clipped there). -/
structure PlateCand where
  x1 : ℤ
  y1 : ℤ
  x2 : ℤ
  y2 : ℤ
  area : ℚ
  aspect : ℚ
  edge : ℚ
deriving DecidableEq

/-- A returned plate box `(X1, Y1, X2, Y2)` in the original crop's
coordinate space. -/
structure PlateBox where
  x1 : ℤ
  y1 : ℤ
  x2 : ℤ
  y2 : ℤ
deriving DecidableEq

/-- The ranking key `t[4] * (t[6] + 0.5)`, i.e. `area * (edge_density + 0.5)`. -/
def plateKey (c : PlateCand) : ℚ := c.area * (c.edge + 1/2)

/-- Lines 42–50 of `_find_plate_boxes` in `modules/addons/blur_plates.py`:
sort the candidate tuples by `area*(edge_density+0.5)` descending
(Python's stable sort with `reverse=True`), keep the top 2, scale each
back to the original crop (of width `w0`, height `h0`) with
`inv = 1/max(scale, 1e-6)`, clamp into the crop, and keep a box only if
`X2 > X1 and Y2 > Y1`.  The image-processing front end producing the
candidate tuples (resize, Sobel, threshold, contours) is opaque here; the
embedding is parameterized by its output list. -/
def selectPlateBoxes (cands : List PlateCand) (scale : ℚ) (w0 h0 : ℕ) :
    List PlateBox :=
  let sorted := cands.mergeSort fun a b => decide (plateKey b ≤ plateKey a)
  let top := sorted.take 2
  let inv : ℚ := 1 / max scale (1/1000000)
  top.filterMap fun c =>
    let X1 := max 0 (min (pyInt ((c.x1 : ℚ) * inv)) ((w0 : ℤ) - 1))
    let X2 := max 0 (min (pyInt ((c.x2 : ℚ) * inv)) (w0 : ℤ))
    let Y1 := max 0 (min (pyInt ((c.y1 : ℚ) * inv)) ((h0 : ℤ) - 1))
    let Y2 := max 0 (min (pyInt ((c.y2 : ℚ) * inv)) (h0 : ℤ))
    if X1 < X2 ∧ Y1 < Y2 then some ⟨X1, Y1, X2, Y2⟩ else none

/-- C8: whatever list of candidate tuples survives the shape and
edge-density filters, `_find_plate_boxes` returns at most 2 plate boxes
(`candidates[:2]` truncation, possibly further shrunk by the degeneracy
filter). -/
theorem claim_C8 (cands : List PlateCand) (scale : ℚ) (w0 h0 : ℕ) :
    (selectPlateBoxes cands scale w0 h0).length ≤ 2 := by
  simp only [selectPlateBoxes]
  refine le_trans (List.length_filterMap_le _ _) ?_
  exact List.length_take_le 2 _

/-- C10: for a non-empty crop (`w0, h0 ≥ 1`), every returned box lies
inside the crop with strictly positive extent:
`0 ≤ X1 < X2 ≤ w0` and `0 ≤ Y1 < Y2 ≤ h0`; boxes that degenerate under
the inverse scaling and clamping are dropped by the
`X2 > X1 and Y2 > Y1` filter, not returned. -/
theorem claim_C10 (cands : List PlateCand) (scale : ℚ) (w0 h0 : ℕ)
    (hw : 1 ≤ w0) (hh : 1 ≤ h0) :
    ∀ b ∈ selectPlateBoxes cands scale w0 h0,
      0 ≤ b.x1 ∧ b.x1 < b.x2 ∧ b.x2 ≤ (w0 : ℤ) ∧
        0 ≤ b.y1 ∧ b.y1 < b.y2 ∧ b.y2 ≤ (h0 : ℤ) := by
  intro b hb
  simp only [selectPlateBoxes] at hb
  obtain ⟨c, -, hc⟩ := List.mem_filterMap.mp hb
  by_cases hcond :
      max 0 (min (pyInt ((c.x1 : ℚ) * (1 / max scale (1/1000000)))) ((w0 : ℤ) - 1)) <
          max 0 (min (pyInt ((c.x2 : ℚ) * (1 / max scale (1/1000000)))) (w0 : ℤ)) ∧
        max 0 (min (pyInt ((c.y1 : ℚ) * (1 / max scale (1/1000000)))) ((h0 : ℤ) - 1)) <
          max 0 (min (pyInt ((c.y2 : ℚ) * (1 / max scale (1/1000000)))) (h0 : ℤ))
  · rw [if_pos hcond] at hc
    obtain rfl := Option.some.inj hc
    exact ⟨le_max_left 0 _, hcond.1,
      max_le (Int.natCast_nonneg w0) (min_le_right _ _),
      le_max_left 0 _, hcond.2,
      max_le (Int.natCast_nonneg h0) (min_le_right _ _)⟩
  · rw [if_neg hcond] at hc
    cases hc

theorem claim_C10_witness :
    0 ≤ (PlateBox.mk 0 0 100 40).x1 ∧
      (PlateBox.mk 0 0 100 40).x1 < (PlateBox.mk 0 0 100 40).x2 ∧
      (PlateBox.mk 0 0 100 40).x2 ≤ ((200 : ℕ) : ℤ) ∧
      0 ≤ (PlateBox.mk 0 0 100 40).y1 ∧
      (PlateBox.mk 0 0 100 40).y1 < (PlateBox.mk 0 0 100 40).y2 ∧
      (PlateBox.mk 0 0 100 40).y2 ≤ ((100 : ℕ) : ℤ) :=
  claim_C10 [⟨0, 0, 100, 40, 4000, 5/2, 1/2⟩] 1 200 100 (by norm_num) (by norm_num)
    (PlateBox.mk 0 0 100 40)
    (by norm_num [selectPlateBoxes, pyInt, List.mergeSort_singleton])

end PragyaEdits
